import Mathlib

/-!
Verification of the recursive layer-descent algorithm of `src/protocol.py`.

The Python source defines an abstract class `Protocol` whose concrete
subclasses analyze one protocol layer of a captured packet.  The only
nontrivial code is the method `Protocol.descend`, which walks the chain of
analyzers produced by `next_protocol()`, merging per-layer summaries
(inherited fields are the base, the current layer's non-`None` fields win)
and collecting per-layer detail dictionaries keyed by the analyzer's class
name with every occurrence of the substring `"Protocol"` removed.

Embedding choices:
* A Python `dict` with string keys is an ordered association list
  (`FieldMap`).  `pyInsert` models `d[k] = v` (update in place if the key
  exists, else append), `pyUpdate` models both `d.update(e)` and the
  `{**a, **b}` merge (for `a` an actual dict, i.e. with distinct keys,
  the two coincide).
* One concrete analyzer instance is a `Protocol` record carrying the data
  the source methods would return for the packet under analysis: the class
  name (`self.__class__.__name__`), the result of `identify()`, of
  `parse_layer_details()` and of `get_summary()`; a Python `None` summary
  value is `Option.none`.
* The chain `self, self.next_protocol(), ...` is a head analyzer plus the
  list of deeper analyzers: `next_protocol()` returns the head of the
  remaining list, or `None` when that list is empty.  An actual `Protocol`
  object is always truthy in Python, so `if next_proto:` is exactly the
  emptiness test on the remaining list.
-/

namespace ProtocolAnalysis

/-- A Python dictionary with string keys, as an ordered association list
(insertion order is observable in Python and in the spec). -/
abbrev FieldMap (β : Type) : Type := List (String × β)

/-- The insertion-ordered key list of a dict. -/
def keys {β : Type} (d : FieldMap β) : List String := d.map Prod.fst

/-- Python `d.get(k)` / `d[k]`: the value at the first (for an actual dict,
the unique) entry with key `k`. -/
def pyLookup {β : Type} (d : FieldMap β) (k : String) : Option β :=
  match d with
  | [] => none
  | q :: t => if q.1 = k then some q.2 else pyLookup t k

/-- Python `d[k] = v`: if `k` is already a key its value is updated in
place (insertion position preserved), otherwise `(k, v)` is appended. -/
def pyInsert {β : Type} : FieldMap β → String → β → FieldMap β
  | [], k, v => [(k, v)]
  | q :: t, k, v => if q.1 = k then (q.1, v) :: t else q :: pyInsert t k v

/-- Python `d.update(e)` (and, for `d` an actual dict, `{**d, **e}`):
insert the entries of `e` into `d` in order. -/
def pyUpdate {β : Type} (d e : FieldMap β) : FieldMap β :=
  e.foldl (fun acc q => pyInsert acc q.1 q.2) d

/-- One concrete layer analyzer (an instance of a subclass of the source's
`Protocol` class), recorded by what its methods return on the packet being
analyzed.  `α` is the type of scalar field values. -/
structure Protocol (α : Type) where
  /-- `self.__class__.__name__`. -/
  className : String
  /-- The result of `identify()`. -/
  identify : Bool
  /-- The result of `parse_layer_details()`. -/
  parse_layer_details : FieldMap α
  /-- The result of `get_summary()`; `none` is Python's `None`. -/
  get_summary : FieldMap (Option α)

/-- Python's `str.replace` on character lists: scan left to right, replace
each non-overlapping occurrence of `pat` (when non-empty) by `repl`.  The
fuel argument (instantiated with the string length, an upper bound on the
number of scanning steps) only makes the recursion structural. -/
def replaceAllAux (pat repl : List Char) : Nat → List Char → List Char
  | 0, s => s
  | _, [] => []
  | fuel + 1, c :: t =>
    if pat.isPrefixOf (c :: t) && !pat.isEmpty then
      repl ++ replaceAllAux pat repl fuel ((c :: t).drop pat.length)
    else c :: replaceAllAux pat repl fuel t

/-- Python `s.replace(pat, repl)` for a non-empty `pat`. -/
def pyReplace (s pat repl : String) : String :=
  String.mk (replaceAllAux pat.data repl.data s.data.length s.data)

/-- `self.__class__.__name__.replace("Protocol", "")` (line 79): every
occurrence of the substring `"Protocol"` is removed, not only a suffix. -/
def protocolNameOf (cls : String) : String := pyReplace cls "Protocol" ""

/-- Lines 77-80: the fresh `details` dict after recording the current
layer: one entry keyed by the protocol name when `parse_layer_details()`
is non-empty (a non-empty dict is truthy), else empty. -/
def layerDetailMap {α : Type} (p : Protocol α) : FieldMap (FieldMap α) :=
  if p.parse_layer_details.isEmpty then []
  else [(protocolNameOf p.className, p.parse_layer_details)]

/-- The dict comprehension of line 86:
`{k: v for k, v in current_summary.items() if v is not None}`. -/
def filterNonNull {α : Type} (s : FieldMap (Option α)) : FieldMap α :=
  s.filterMap (fun q => q.2.map (fun v => (q.1, v)))

/-- Lines 84-87: `combined_summary = {**inherited_summary, **{...}}`. -/
def combineSummary {α : Type} (inh : FieldMap α) (s : FieldMap (Option α)) :
    FieldMap α :=
  pyUpdate inh (filterNonNull s)

/-- `Protocol.descend` (lines 61-101) on the chain consisting of the head
analyzer `p` followed by the deeper analyzers `rest`.  Returns the pair
(`result["summary"]`, `result["details"]`). -/
def descend {α : Type} :
    Protocol α → List (Protocol α) → FieldMap α →
      FieldMap α × FieldMap (FieldMap α)
  | p, rest, inherited_summary =>
    let details := layerDetailMap p
    let combined_summary := combineSummary inherited_summary p.get_summary
    match rest with
    | [] => (combined_summary, details)
    | q :: qs =>
      let result := descend q qs combined_summary
      (result.1, pyUpdate details result.2)

/-- The top-level call `analyzer.descend()` with the defaulted
`inherited_summary = {}` of lines 74-75. -/
def descendTop {α : Type} (p : Protocol α) (rest : List (Protocol α)) :
    FieldMap α × FieldMap (FieldMap α) :=
  descend p rest []

/-! ### Basic dictionary lemmas -/

theorem keys_cons {β : Type} (q : String × β) (t : FieldMap β) :
    keys (q :: t) = q.1 :: keys t := rfl

theorem keys_pyInsert {β : Type} (d : FieldMap β) (k : String) (v : β) :
    keys (pyInsert d k v) = if k ∈ keys d then keys d else keys d ++ [k] := by
  induction d with
  | nil => simp [pyInsert, keys]
  | cons q t ih =>
      by_cases hq : q.1 = k
      · subst hq
        simp [pyInsert, keys_cons]
      · have hk2 : ¬(k = q.1) := fun h => hq h.symm
        by_cases hmem : k ∈ keys t
        · simp [pyInsert, hq, keys_cons, hmem, hk2, ih]
        · simp [pyInsert, hq, keys_cons, hmem, hk2, ih]

theorem pyLookup_eq_none_of_not_mem {β : Type} (d : FieldMap β) (k : String)
    (h : k ∉ keys d) : pyLookup d k = none := by
  induction d with
  | nil => rfl
  | cons q t ih =>
      rw [keys_cons, List.mem_cons] at h
      push_neg at h
      have hq : q.1 ≠ k := fun hc => h.1 hc.symm
      simp only [pyLookup, hq, if_false]
      exact ih h.2

theorem pyLookup_pyInsert {β : Type} (d : FieldMap β) (k k' : String) (v : β) :
    pyLookup (pyInsert d k v) k' =
      if k' = k then some v else pyLookup d k' := by
  induction d with
  | nil =>
      by_cases hk : k' = k
      · subst hk
        simp [pyInsert, pyLookup]
      · have : ¬(k = k') := fun h => hk h.symm
        simp [pyInsert, pyLookup, this, hk]
  | cons q t ih =>
      by_cases hq : q.1 = k
      · subst hq
        by_cases hk : k' = q.1
        · subst hk
          simp [pyInsert, pyLookup]
        · have : ¬(q.1 = k') := fun h => hk h.symm
          simp [pyInsert, pyLookup, this, hk]
      · by_cases hqk : q.1 = k'
        · have : ¬(k' = k) := fun h => hq (hqk.trans h)
          simp [pyInsert, pyLookup, hq, hqk, this]
        · simp [pyInsert, pyLookup, hq, hqk, ih]

/-- `pyInsert` keeps the keys of a dict distinct. -/
theorem keysNodup_pyInsert {β : Type} (d : FieldMap β) (k : String) (v : β)
    (h : (keys d).Nodup) : (keys (pyInsert d k v)).Nodup := by
  rw [keys_pyInsert]
  by_cases hmem : k ∈ keys d
  · simpa [hmem] using h
  · rw [if_neg hmem, List.nodup_append]
    exact ⟨h, List.nodup_singleton k, by simpa using hmem⟩

theorem keysNodup_pyUpdate {β : Type} (d e : FieldMap β)
    (h : (keys d).Nodup) : (keys (pyUpdate d e)).Nodup := by
  induction e generalizing d with
  | nil => simpa [pyUpdate] using h
  | cons q t ih =>
      simpa [pyUpdate] using ih (pyInsert d q.1 q.2) (keysNodup_pyInsert d q.1 q.2 h)

/-- Looking up after `pyUpdate`: the updating dict wins whenever it holds
the key, provided its keys are distinct (true of every actual dict). -/
theorem pyLookup_pyUpdate {β : Type} (d e : FieldMap β) (k : String)
    (he : (keys e).Nodup) :
    pyLookup (pyUpdate d e) k = (pyLookup e k).or (pyLookup d k) := by
  induction e generalizing d with
  | nil => simp [pyUpdate, pyLookup]
  | cons q t ih =>
      rw [keys_cons, List.nodup_cons] at he
      have hrec := ih (pyInsert d q.1 q.2) he.2
      simp only [pyUpdate, List.foldl_cons] at hrec ⊢
      rw [hrec, pyLookup_pyInsert]
      by_cases hk : k = q.1
      · subst hk
        have hnone : pyLookup t q.1 = none :=
          pyLookup_eq_none_of_not_mem t q.1 he.1
        simp [pyLookup, hnone]
      · have hq : q.1 ≠ k := fun hc => hk hc.symm
        simp [pyLookup, hq, hk]

/-! ### Unfolding equations and structural invariants of `descend` -/

theorem descend_nil {α : Type} (p : Protocol α) (inh : FieldMap α) :
    descend p [] inh = (combineSummary inh p.get_summary, layerDetailMap p) :=
  rfl

theorem descend_cons {α : Type} (p q : Protocol α) (qs : List (Protocol α))
    (inh : FieldMap α) :
    descend p (q :: qs) inh =
      ((descend q qs (combineSummary inh p.get_summary)).1,
        pyUpdate (layerDetailMap p)
          (descend q qs (combineSummary inh p.get_summary)).2) :=
  rfl

theorem layerDetailMap_keysNodup {α : Type} (p : Protocol α) :
    (keys (layerDetailMap p)).Nodup := by
  unfold layerDetailMap
  split <;> simp [keys]

/-- The details dict returned by `descend` always has distinct keys. -/
theorem descend_details_keysNodup {α : Type} (p : Protocol α)
    (rest : List (Protocol α)) (inh : FieldMap α) :
    (keys (descend p rest inh).2).Nodup := by
  cases rest with
  | nil => simpa [descend_nil] using layerDetailMap_keysNodup p
  | cons q qs =>
      rw [descend_cons]
      exact keysNodup_pyUpdate _ _ (layerDetailMap_keysNodup p)

/-! ### Claim theorems -/

/-- C3: for a single-layer chain (`next_protocol()` returns `None`),
`descend` returns the inherited seed overridden by the layer's non-null
`get_summary` fields, together with a details dict that has exactly one
entry when `parse_layer_details()` is non-empty and none otherwise (hence
at most one entry). -/
theorem descend_terminal_layer {α : Type} (p : Protocol α) (inh : FieldMap α) :
    descend p [] inh = (combineSummary inh p.get_summary, layerDetailMap p) ∧
    (descend p [] inh).2.length =
      (if p.parse_layer_details.isEmpty then 0 else 1) ∧
    (descend p [] inh).2.length ≤ 1 := by
  refine ⟨rfl, ?_, ?_⟩ <;>
    · rw [descend_nil]
      unfold layerDetailMap
      split <;> simp

/-- C2: when `next_protocol()` returns an analyzer, `descend` returns the
recursive call's summary unchanged, and its details dict is the current
layer's entry updated with the recursive call's details, the inner details
winning on any protocol-name key collision. -/
theorem descend_next_propagation {α : Type} (p q : Protocol α)
    (qs : List (Protocol α)) (inh : FieldMap α) :
    (descend p (q :: qs) inh).1 =
      (descend q qs (combineSummary inh p.get_summary)).1 ∧
    ∀ k : String,
      pyLookup (descend p (q :: qs) inh).2 k =
        ((pyLookup (descend q qs (combineSummary inh p.get_summary)).2 k).or
          (pyLookup (layerDetailMap p) k)) := by
  constructor
  · rw [descend_cons]
  · intro k
    rw [descend_cons]
    exact pyLookup_pyUpdate _ _ k (descend_details_keysNodup q qs _)

/-- C10: the details key is the class name with every occurrence of the
substring `"Protocol"` removed (not only a trailing suffix); the class
name `"Protocol"` itself yields the empty-string key; `"TCPProtocol"` and
`"TCP"` yield the same key, so in a chain containing both their detail
entries collide and only one entry (holding the inner layer's details)
survives. -/
theorem protocol_name_key_policy :
    (∀ (α : Type) (p : Protocol α),
      layerDetailMap p =
        if p.parse_layer_details.isEmpty then []
        else [(protocolNameOf p.className, p.parse_layer_details)]) ∧
    protocolNameOf "Protocol" = "" ∧
    protocolNameOf "TCPProtocol" = "TCP" ∧
    protocolNameOf "TCP" = "TCP" ∧
    protocolNameOf "ProtocolTCP" = "TCP" ∧
    (descend (⟨"TCPProtocol", true, [("flags", 2)], []⟩ : Protocol Nat)
        [⟨"TCP", true, [("window", 3)], []⟩] []).2 =
      [("TCP", [("window", 3)])] := by
  exact ⟨fun α p => rfl, by decide, by decide, by decide, by decide, by decide⟩

/-! ### Summary aggregation (C1) -/

theorem keys_filterNonNull_sublist {α : Type} (s : FieldMap (Option α)) :
    List.Sublist (keys (filterNonNull s)) (keys s) := by
  induction s with
  | nil => simp [filterNonNull, keys]
  | cons q t ih =>
      cases hv : q.2 with
      | none =>
          simp only [filterNonNull, List.filterMap_cons, hv, Option.map_none]
          exact (ih.trans (List.sublist_cons_self q.1 (keys t)))
      | some v =>
          simpa only [filterNonNull, List.filterMap_cons, hv, Option.map_some,
            keys_cons] using List.Sublist.cons₂ q.1 ih

theorem keysNodup_filterNonNull {α : Type} (s : FieldMap (Option α))
    (h : (keys s).Nodup) : (keys (filterNonNull s)).Nodup :=
  h.sublist (keys_filterNonNull_sublist s)

/-- For an actual dict (distinct keys), looking up in the non-null
filtrate is looking up and flattening the explicit-null marker. -/
theorem pyLookup_filterNonNull {α : Type} (s : FieldMap (Option α))
    (k : String) (h : (keys s).Nodup) :
    pyLookup (filterNonNull s) k = (pyLookup s k).bind id := by
  induction s with
  | nil => rfl
  | cons q t ih =>
      rw [keys_cons, List.nodup_cons] at h
      cases hv : q.2 with
      | none =>
          by_cases hk : q.1 = k
          · subst hk
            have hnone : pyLookup (filterNonNull t) q.1 = none := by
              apply pyLookup_eq_none_of_not_mem
              intro hmem
              exact h.1 ((keys_filterNonNull_sublist t).mem hmem)
            have hft : filterNonNull (q :: t) = filterNonNull t := by
              simp [filterNonNull, hv]
            rw [hft, hnone]
            simp [pyLookup, hv]
          · simp only [filterNonNull, List.filterMap_cons, hv, Option.map_none,
              pyLookup, hk, if_false]
            exact ih h.2
      | some v =>
          by_cases hk : q.1 = k
          · simp [filterNonNull, List.filterMap_cons, hv, pyLookup, hk]
          · simp only [filterNonNull, List.filterMap_cons, hv, Option.map_some,
              pyLookup, hk, if_false]
            exact ih h.2

/-- Modelled from the spec's invariant and override law, for the
refinement comparison of C1: the value the final summary should give key
`k` is the innermost (deepest) layer's non-null `get_summary` value for
`k`, if any layer sets one.  (`Option.or` prefers the deeper suffix of the
chain, i.e. inner layers win and explicit nulls are invisible.) -/
def specSummaryLookup {α : Type} : List (Protocol α) → String → Option α
  | [], _ => none
  | p :: t, k => (specSummaryLookup t k).or ((pyLookup p.get_summary k).bind id)

theorem descend_summary_lookup {α : Type} (p : Protocol α)
    (rest : List (Protocol α)) (inh : FieldMap α) (k : String)
    (h : ∀ x ∈ p :: rest, (keys x.get_summary).Nodup) :
    pyLookup (descend p rest inh).1 k =
      (specSummaryLookup (p :: rest) k).or (pyLookup inh k) := by
  induction rest generalizing p inh with
  | nil =>
      have hp : (keys p.get_summary).Nodup := h p (by simp)
      rw [descend_nil]
      show pyLookup (combineSummary inh p.get_summary) k = _
      unfold combineSummary
      rw [pyLookup_pyUpdate _ _ k (keysNodup_filterNonNull _ hp),
        pyLookup_filterNonNull _ _ hp]
      simp [specSummaryLookup]
  | cons q qs ih =>
      have hp : (keys p.get_summary).Nodup := h p (by simp)
      have h' : ∀ x ∈ q :: qs, (keys x.get_summary).Nodup := fun x hx =>
        h x (List.mem_cons_of_mem p hx)
      rw [descend_cons]
      show pyLookup (descend q qs (combineSummary inh p.get_summary)).1 k = _
      rw [ih q (combineSummary inh p.get_summary) h']
      unfold combineSummary
      rw [pyLookup_pyUpdate _ _ k (keysNodup_filterNonNull _ hp),
        pyLookup_filterNonNull _ _ hp]
      show _ = (specSummaryLookup (p :: q :: qs) k).or (pyLookup inh k)
      simp [specSummaryLookup, Option.or_assoc]

/-- C1: the summary returned by the top-level `descend` maps each key to
the innermost layer's non-null `get_summary` value for it: a strictly
inner non-null value overrides an outer one, an inner explicit `None`
leaves the outer value in place, and `None`-valued fields neither add nor
erase inherited values.  (The hypothesis says each layer's `get_summary`
is an actual dict, i.e. has distinct keys.) -/
theorem final_summary_innermost_nonnull {α : Type} (p : Protocol α)
    (rest : List (Protocol α)) (k : String)
    (h : ∀ x ∈ p :: rest, (keys x.get_summary).Nodup) :
    pyLookup (descendTop p rest).1 k = specSummaryLookup (p :: rest) k := by
  unfold descendTop
  rw [descend_summary_lookup p rest [] k h]
  simp [pyLookup]

/-- The Ethernet layer of the spec's worked example (§8). -/
def ethLayer : Protocol String :=
  ⟨"EthernetProtocol", true, [("eth_type", "IPv4")],
    [("mac_src", some "aa:bb"), ("mac_dst", some "cc:dd"), ("protocol", none)]⟩

/-- The IP layer of the spec's worked example (§8). -/
def ipLayer : Protocol String :=
  ⟨"IPProtocol", true, [("ttl", "64")],
    [("protocol", some "TCP"), ("src", some "10.0.0.1"),
      ("dst", some "10.0.0.2")]⟩

/-- The terminal TCP layer of the spec's worked example (§8). -/
def tcpLayer : Protocol String :=
  ⟨"TCPProtocol", true, [("flags", "SYN")],
    [("src_port", some "443"), ("dst_port", some "51000"),
      ("protocol", none)]⟩

/-- Witness for C1 on the spec's worked example: the chain satisfies the
distinct-keys hypothesis, the final summary's `"protocol"` is the IP
layer's `"TCP"` (the TCP layer's explicit null does not erase it), and
`"src_port"` is the TCP layer's value. -/
theorem final_summary_innermost_nonnull_witness :
    (∀ x ∈ ethLayer :: [ipLayer, tcpLayer], (keys x.get_summary).Nodup) ∧
    pyLookup (descendTop ethLayer [ipLayer, tcpLayer]).1 "protocol" =
      specSummaryLookup [ethLayer, ipLayer, tcpLayer] "protocol" ∧
    pyLookup (descendTop ethLayer [ipLayer, tcpLayer]).1 "src_port" =
      specSummaryLookup [ethLayer, ipLayer, tcpLayer] "src_port" ∧
    specSummaryLookup [ethLayer, ipLayer, tcpLayer] "protocol" = some "TCP" ∧
    specSummaryLookup [ethLayer, ipLayer, tcpLayer] "src_port" = some "443" :=
  ⟨by decide,
    final_summary_innermost_nonnull ethLayer [ipLayer, tcpLayer] "protocol"
      (by decide),
    final_summary_innermost_nonnull ethLayer [ipLayer, tcpLayer] "src_port"
      (by decide),
    by decide, by decide⟩

/-! ### Recursion count and details size (C4) -/

theorem length_pyInsert_le {β : Type} (d : FieldMap β) (k : String) (v : β) :
    (pyInsert d k v).length ≤ d.length + 1 := by
  induction d with
  | nil => simp [pyInsert]
  | cons q t ih =>
      by_cases hq : q.1 = k
      · simp [pyInsert, hq]
      · simpa [pyInsert, hq] using ih

theorem length_pyUpdate_le {β : Type} (d e : FieldMap β) :
    (pyUpdate d e).length ≤ d.length + e.length := by
  induction e generalizing d with
  | nil => simp [pyUpdate]
  | cons q t ih =>
      calc (pyUpdate d (q :: t)).length
          = (pyUpdate (pyInsert d q.1 q.2) t).length := by
            simp [pyUpdate]
        _ ≤ (pyInsert d q.1 q.2).length + t.length := ih _
        _ ≤ (d.length + 1) + t.length :=
            Nat.add_le_add_right (length_pyInsert_le d q.1 q.2) t.length
        _ = d.length + (q :: t).length := by
            simp only [List.length_cons]
            omega

theorem mem_keys_pyInsert {β : Type} (d : FieldMap β) (k k' : String) (v : β)
    (h : k' ∈ keys (pyInsert d k v)) : k' ∈ keys d ∨ k' = k := by
  rw [keys_pyInsert] at h
  by_cases hmem : k ∈ keys d
  · rw [if_pos hmem] at h
    exact Or.inl h
  · rw [if_neg hmem, List.mem_append] at h
    simpa using h

theorem mem_keys_pyUpdate {β : Type} (d e : FieldMap β) (k : String)
    (h : k ∈ keys (pyUpdate d e)) : k ∈ keys d ∨ k ∈ keys e := by
  induction e generalizing d with
  | nil => exact Or.inl (by simpa [pyUpdate] using h)
  | cons q t ih =>
      rw [show pyUpdate d (q :: t) = pyUpdate (pyInsert d q.1 q.2) t from by
        simp [pyUpdate]] at h
      rcases ih (pyInsert d q.1 q.2) h with h1 | h2
      · rcases mem_keys_pyInsert d q.1 k q.2 h1 with h3 | h4
        · exact Or.inl h3
        · exact Or.inr (by simp [keys_cons, h4])
      · exact Or.inr (by simp [keys_cons, h2])

/-- The number of `descend` invocations performed by the chain: the body
runs once per layer, recursing exactly when `next_protocol()` is
non-`None` (line 90). -/
def descendCalls {α : Type} : Protocol α → List (Protocol α) → Nat
  | _, [] => 1
  | _, q :: qs => 1 + descendCalls q qs

theorem descendCalls_eq_length {α : Type} (p : Protocol α)
    (rest : List (Protocol α)) : descendCalls p rest = rest.length + 1 := by
  induction rest generalizing p with
  | nil => rfl
  | cons q qs ih => simp [descendCalls, ih q, Nat.add_comm]

theorem descend_details_length_le {α : Type} (p : Protocol α)
    (rest : List (Protocol α)) (inh : FieldMap α) :
    (descend p rest inh).2.length ≤
      ((p :: rest).filter (fun x => !x.parse_layer_details.isEmpty)).length := by
  induction rest generalizing p inh with
  | nil =>
      rw [descend_nil]
      unfold layerDetailMap
      by_cases hne : p.parse_layer_details.isEmpty <;> simp [hne]
  | cons q qs ih =>
      rw [descend_cons]
      calc (pyUpdate (layerDetailMap p)
              (descend q qs (combineSummary inh p.get_summary)).2).length
          ≤ (layerDetailMap p).length +
              (descend q qs (combineSummary inh p.get_summary)).2.length :=
            length_pyUpdate_le _ _
        _ ≤ (layerDetailMap p).length +
              ((q :: qs).filter
                (fun x => !x.parse_layer_details.isEmpty)).length :=
            Nat.add_le_add_left (ih q _) _
        _ ≤ ((p :: q :: qs).filter
              (fun x => !x.parse_layer_details.isEmpty)).length := by
            unfold layerDetailMap
            by_cases hne : p.parse_layer_details.isEmpty
            · simp [hne, List.filter_cons]
            · simp [hne, List.filter_cons]
              omega

theorem descend_detail_keys_from_layers {α : Type} (p : Protocol α)
    (rest : List (Protocol α)) (inh : FieldMap α) (k : String)
    (h : k ∈ keys (descend p rest inh).2) :
    ∃ x ∈ p :: rest,
      ¬x.parse_layer_details.isEmpty ∧ protocolNameOf x.className = k := by
  induction rest generalizing p inh with
  | nil =>
      rw [descend_nil] at h
      unfold layerDetailMap at h
      by_cases hne : p.parse_layer_details.isEmpty
      · simp [hne, keys] at h
      · refine ⟨p, by simp, hne, ?_⟩
        simp [hne, keys] at h
        exact h.symm
  | cons q qs ih =>
      rw [descend_cons] at h
      rcases mem_keys_pyUpdate _ _ k h with h1 | h2
      · unfold layerDetailMap at h1
        by_cases hne : p.parse_layer_details.isEmpty
        · simp [hne, keys] at h1
        · refine ⟨p, by simp, hne, ?_⟩
          simp [hne, keys] at h1
          exact h1.symm
      · rcases ih q (combineSummary inh p.get_summary) h2 with ⟨x, hx, hxe, hxn⟩
        exact ⟨x, List.mem_cons_of_mem p hx, hxe, hxn⟩

/-- C4: on a chain of length `N = rest.length + 1` the engine performs
exactly `N` invocations of `descend`; the returned details dict has at
most as many entries as there are layers with non-empty
`parse_layer_details()` (hence at most `N`), and every details key comes
from such a layer. -/
theorem descend_call_count_and_detail_bound {α : Type} (p : Protocol α)
    (rest : List (Protocol α)) (inh : FieldMap α) :
    descendCalls p rest = rest.length + 1 ∧
    (descend p rest inh).2.length ≤
      ((p :: rest).filter (fun x => !x.parse_layer_details.isEmpty)).length ∧
    (descend p rest inh).2.length ≤ rest.length + 1 ∧
    (∀ k, k ∈ keys (descend p rest inh).2 →
      ∃ x ∈ p :: rest,
        ¬x.parse_layer_details.isEmpty ∧ protocolNameOf x.className = k) :=
  ⟨descendCalls_eq_length p rest,
    descend_details_length_le p rest inh,
    le_trans (descend_details_length_le p rest inh)
      (by
        simpa using
          List.length_filter_le (fun x => !x.parse_layer_details.isEmpty)
            (p :: rest)),
    fun k hk => descend_detail_keys_from_layers p rest inh k hk⟩

/-- Witness for C4 on the worked example chain: three layers, three
invocations, three (non-empty) detail entries, and the key `"IP"` indeed
comes from a layer with non-empty details. -/
theorem descend_call_count_and_detail_bound_witness :
    descendCalls ethLayer [ipLayer, tcpLayer] = 3 ∧
    (descend ethLayer [ipLayer, tcpLayer] []).2.length ≤ 3 ∧
    "IP" ∈ keys (descend ethLayer [ipLayer, tcpLayer] []).2 ∧
    (∃ x ∈ ethLayer :: [ipLayer, tcpLayer],
      ¬x.parse_layer_details.isEmpty ∧ protocolNameOf x.className = "IP") :=
  ⟨(descend_call_count_and_detail_bound ethLayer [ipLayer, tcpLayer] []).1,
    (descend_call_count_and_detail_bound ethLayer [ipLayer, tcpLayer] []).2.2.1,
    by decide,
    (descend_call_count_and_detail_bound ethLayer [ipLayer, tcpLayer]
      []).2.2.2 "IP" (by decide)⟩

/-! ### Stability of the details key set (C5) -/

/-- Appending a key to a key list unless it is already present — the
effect of one `pyInsert` on the key list. -/
def insKey (ks : List String) (k : String) : List String :=
  if k ∈ ks then ks else ks ++ [k]

theorem keys_pyUpdate_eq_foldl {β : Type} (d e : FieldMap β) :
    keys (pyUpdate d e) = (keys e).foldl insKey (keys d) := by
  induction e generalizing d with
  | nil => rfl
  | cons q t ih =>
      rw [show pyUpdate d (q :: t) = pyUpdate (pyInsert d q.1 q.2) t from by
        simp [pyUpdate]]
      have hins : keys (pyInsert d q.1 q.2) = insKey (keys d) q.1 := by
        rw [keys_pyInsert]
        rfl
      rw [ih, hins, keys_cons, List.foldl_cons]

/-- The details key list determined by the chain's static shape alone:
per layer, its class name and whether its `parse_layer_details()` came
out empty. -/
def detailKeysOfShape : List (String × Bool) → List String
  | [] => []
  | (c, emp) :: t =>
    let base := if emp then [] else [protocolNameOf c]
    match t with
    | [] => base
    | s :: ts => (detailKeysOfShape (s :: ts)).foldl insKey base

theorem keys_layerDetailMap {α : Type} (p : Protocol α) :
    keys (layerDetailMap p) =
      if p.parse_layer_details.isEmpty then []
      else [protocolNameOf p.className] := by
  unfold layerDetailMap
  split <;> simp [keys]

/-- The key list of the details returned by `descend` is a function of
the chain's shape (class names and details-emptiness) only. -/
theorem descend_detail_keys_shape {α : Type} (p : Protocol α)
    (rest : List (Protocol α)) (inh : FieldMap α) :
    keys (descend p rest inh).2 =
      detailKeysOfShape
        ((p :: rest).map
          (fun x => (x.className, x.parse_layer_details.isEmpty))) := by
  induction rest generalizing p inh with
  | nil =>
      rw [descend_nil]
      show keys (layerDetailMap p) = _
      rw [keys_layerDetailMap]
      rfl
  | cons q qs ih =>
      rw [descend_cons]
      show keys (pyUpdate (layerDetailMap p) _) = _
      rw [keys_pyUpdate_eq_foldl, ih q _, keys_layerDetailMap]
      rfl

/-- C5 (amended): the details key of a layer is derived only from the
analyzer's class name; consequently two packets analyzed through the same
chain of analyzer variants whose layers also agree on whether
`parse_layer_details()` is empty produce identical details key sets (over
any inherited seeds and even different value types).  The agreement on
emptiness is necessary: see the counterexample. -/
theorem detail_keys_stable_amended {α β : Type} (p1 : Protocol α)
    (r1 : List (Protocol α)) (p2 : Protocol β) (r2 : List (Protocol β))
    (inh1 : FieldMap α) (inh2 : FieldMap β)
    (hc : (p1 :: r1).map Protocol.className =
      (p2 :: r2).map Protocol.className)
    (he : (p1 :: r1).map (fun x => x.parse_layer_details.isEmpty) =
      (p2 :: r2).map (fun x => x.parse_layer_details.isEmpty)) :
    keys (descend p1 r1 inh1).2 = keys (descend p2 r2 inh2).2 := by
  rw [descend_detail_keys_shape, descend_detail_keys_shape]
  have h1 : (p1 :: r1).map
      (fun x => (x.className, x.parse_layer_details.isEmpty)) =
      ((p1 :: r1).map Protocol.className).zip
        ((p1 :: r1).map (fun x => x.parse_layer_details.isEmpty)) :=
    (List.zip_map' _ _ _).symm
  have h2 : (p2 :: r2).map
      (fun x => (x.className, x.parse_layer_details.isEmpty)) =
      ((p2 :: r2).map Protocol.className).zip
        ((p2 :: r2).map (fun x => x.parse_layer_details.isEmpty)) :=
    (List.zip_map' _ _ _).symm
  rw [h1, h2, hc, he]

/-- C5 counterexample: the claim as stated is false — two packets
analyzed through the same analyzer variant (class name `"TCPProtocol"`),
one of which yields empty `parse_layer_details()` and one of which does
not, produce different details key sets, because line 78 records a
layer's entry only when its details are non-empty. -/
theorem detail_keys_packet_dependent_cex :
    Protocol.className
        (⟨"TCPProtocol", true, [("flags", "S")], []⟩ : Protocol String) =
      Protocol.className
        (⟨"TCPProtocol", true, [], []⟩ : Protocol String) ∧
    keys (descendTop
        (⟨"TCPProtocol", true, [("flags", "S")], []⟩ : Protocol String)
        []).2 ≠
      keys (descendTop
        (⟨"TCPProtocol", true, [], []⟩ : Protocol String) []).2 := by
  decide

/-- A second packet's Ethernet layer: same class, different values. -/
def ethLayerB : Protocol String :=
  ⟨"EthernetProtocol", false, [("eth_type", "ARP")],
    [("mac_src", some "11:22"), ("protocol", none)]⟩

/-- A second packet's IP layer: same class, different values. -/
def ipLayerB : Protocol String :=
  ⟨"IPProtocol", true, [("ttl", "128")],
    [("protocol", some "UDP"), ("src", some "192.168.0.9")]⟩

/-- A second packet's TCP layer: same class, different values. -/
def tcpLayerB : Protocol String :=
  ⟨"TCPProtocol", false, [("flags", "ACK")], [("src_port", some "80")]⟩

/-- Witness for the amended C5: the two example packets share class names
and details-emptiness, and their details key sets coincide. -/
theorem detail_keys_stable_amended_witness :
    ((ethLayer :: [ipLayer, tcpLayer]).map Protocol.className =
      (ethLayerB :: [ipLayerB, tcpLayerB]).map Protocol.className) ∧
    ((ethLayer :: [ipLayer, tcpLayer]).map
        (fun x => x.parse_layer_details.isEmpty) =
      (ethLayerB :: [ipLayerB, tcpLayerB]).map
        (fun x => x.parse_layer_details.isEmpty)) ∧
    keys (descend ethLayer [ipLayer, tcpLayer] []).2 =
      keys (descend ethLayerB [ipLayerB, tcpLayerB] []).2 :=
  ⟨by decide, by decide,
    detail_keys_stable_amended ethLayer [ipLayer, tcpLayer]
      ethLayerB [ipLayerB, tcpLayerB] [] [] (by decide) (by decide)⟩

/-! ### Termination (C6) -/

/-- `descend` cut off at recursion depth `fuel`: the engine itself has no
depth bound, so this models running the unbounded recursion inside a
stack of height `fuel`; `none` means the bound was hit. -/
def descendFuel {α : Type} :
    Nat → Protocol α → List (Protocol α) → FieldMap α →
      Option (FieldMap α × FieldMap (FieldMap α))
  | 0, _, _, _ => none
  | fuel + 1, p, rest, inh =>
    let details := layerDetailMap p
    let combined := combineSummary inh p.get_summary
    match rest with
    | [] => some (combined, details)
    | q :: qs =>
      (descendFuel fuel q qs combined).map (fun r => (r.1, pyUpdate details r.2))

/-- C6: on every finite acyclic chain (the chain model itself — the
precondition the engine trusts its implementations for), any stack
strictly deeper than the chain length suffices: the recursion terminates
with the value of `descend`, and the engine needs no depth bound of its
own beyond the chain's length. -/
theorem descend_fuel_terminates {α : Type} (p : Protocol α)
    (rest : List (Protocol α)) (inh : FieldMap α) (fuel : Nat)
    (h : rest.length < fuel) :
    descendFuel fuel p rest inh = some (descend p rest inh) := by
  revert h
  induction rest generalizing p inh fuel with
  | nil =>
      intro h
      cases fuel with
      | zero => exact absurd h (Nat.not_lt_zero _)
      | succ f => rfl
  | cons q qs ih =>
      intro h
      cases fuel with
      | zero => exact absurd h (Nat.not_lt_zero _)
      | succ f =>
          have hlen : qs.length < f := by
            simpa using Nat.lt_of_succ_lt_succ h
          simp [descendFuel, descend_cons, ih q (combineSummary inh p.get_summary) f hlen]

/-- Witness for C6: the three-layer example chain resolves under any
stack of depth three. -/
theorem descend_fuel_terminates_witness :
    [ipLayer, tcpLayer].length < 3 ∧
    descendFuel 3 ethLayer [ipLayer, tcpLayer] [] =
      some (descend ethLayer [ipLayer, tcpLayer] []) :=
  ⟨by decide,
    descend_fuel_terminates ethLayer [ipLayer, tcpLayer] [] 3 (by decide)⟩

/-! ### Frame property (C7)

The source reads the packet and the analyzers (both modelled as the
immutable `Protocol` records — `descend` only calls their read-only
methods) and handles three dicts: the fresh local `details` (line 73,
mutated only by line 92's `update`), the fresh `combined_summary` built
by the dict display of lines 84-87, and the caller's `inherited_summary`,
which is only read.  To make allocation and mutation observable we rerun
`descend` with the summary dicts held in an explicit address-indexed
store: every dict display allocates a fresh cell and no existing cell is
ever written. -/

/-- A store of summary dicts: `next` is the next fresh address, `mem`
the contents of each cell. -/
structure SumStore (α : Type) where
  next : Nat
  mem : Nat → FieldMap α

/-- Allocate a fresh cell holding dict `d`. -/
def salloc {α : Type} (st : SumStore α) (d : FieldMap α) :
    Nat × SumStore α :=
  (st.next, ⟨st.next + 1, fun a => if a = st.next then d else st.mem a⟩)

/-- `descend` with summary dicts in an explicit store.  The inherited
summary arrives as the address `inhA`; the `combined_summary` display of
lines 84-87 allocates a fresh cell; the recursive call receives that
cell's address.  Returns ((address of the result summary, details dict),
final store). -/
def descendS {α : Type} :
    Protocol α → List (Protocol α) → Nat → SumStore α →
      (Nat × FieldMap (FieldMap α)) × SumStore α
  | p, rest, inhA, st =>
    let details := layerDetailMap p
    let alloc := salloc st (combineSummary (st.mem inhA) p.get_summary)
    match rest with
    | [] => ((alloc.1, details), alloc.2)
    | q :: qs =>
      let inner := descendS q qs alloc.1 alloc.2
      ((inner.1.1, pyUpdate details inner.1.2), inner.2)

/-- C7: `descend` is side-effect-free on everything outside its freshly
allocated result structures: every cell allocated before the call (in
particular the caller's `inherited_summary` cell) is unchanged in the
final store; the returned summary lives in a cell allocated during the
call; and the run refines the pure `descend` — its result summary and
details are exactly the pure values, so all writes went to structures
local to the call.  (The packet and analyzers appear only as the
read-only `Protocol` records.) -/
theorem descend_store_frame {α : Type} (p : Protocol α)
    (rest : List (Protocol α)) (inhA : Nat) (st : SumStore α) :
    (∀ a, a < st.next →
      ((descendS p rest inhA st).2).mem a = st.mem a) ∧
    st.next < ((descendS p rest inhA st).2).next ∧
    st.next ≤ (descendS p rest inhA st).1.1 ∧
    (descendS p rest inhA st).1.1 < ((descendS p rest inhA st).2).next ∧
    ((descendS p rest inhA st).2).mem (descendS p rest inhA st).1.1 =
      (descend p rest (st.mem inhA)).1 ∧
    (descendS p rest inhA st).1.2 = (descend p rest (st.mem inhA)).2 := by
  induction rest generalizing p inhA st with
  | nil =>
      refine ⟨?_, ?_, ?_, ?_, ?_, ?_⟩
      · intro a ha
        have hne : a ≠ st.next := Nat.ne_of_lt ha
        simp [descendS, salloc, hne]
      · simp [descendS, salloc]
      · simp [descendS, salloc]
      · simp [descendS, salloc]
      · simp [descendS, salloc, descend_nil]
      · simp [descendS, salloc, descend_nil]
  | cons q qs ih =>
      have hstep :
          descendS p (q :: qs) inhA st =
            ((((descendS q qs st.next
                  ⟨st.next + 1, fun a =>
                    if a = st.next
                    then combineSummary (st.mem inhA) p.get_summary
                    else st.mem a⟩).1.1,
                pyUpdate (layerDetailMap p)
                  (descendS q qs st.next
                    ⟨st.next + 1, fun a =>
                      if a = st.next
                      then combineSummary (st.mem inhA) p.get_summary
                      else st.mem a⟩).1.2)),
              (descendS q qs st.next
                ⟨st.next + 1, fun a =>
                  if a = st.next
                  then combineSummary (st.mem inhA) p.get_summary
                  else st.mem a⟩).2) := by
        simp [descendS, salloc]
      set st1 : SumStore α :=
        ⟨st.next + 1, fun a =>
          if a = st.next
          then combineSummary (st.mem inhA) p.get_summary
          else st.mem a⟩ with hst1
      obtain ⟨ihframe, ihnext, ihlo, ihhi, ihsum, ihdet⟩ := ih q st.next st1
      have hmem1 : st1.mem st.next =
          combineSummary (st.mem inhA) p.get_summary := by
        simp [hst1]
      refine ⟨?_, ?_, ?_, ?_, ?_, ?_⟩
      · intro a ha
        rw [hstep]
        have h1 : a < st1.next := by
          simp [hst1]
          omega
        have h2 : a ≠ st.next := Nat.ne_of_lt ha
        rw [ihframe a h1]
        simp [hst1, h2]
      · rw [hstep]
        have : st.next < st1.next := by
          simp [hst1]
        exact Nat.lt_trans this ihnext
      · rw [hstep]
        have : st.next < st1.next := by
          simp [hst1]
        exact Nat.le_trans (Nat.le_of_lt this) ihlo
      · rw [hstep]
        exact ihhi
      · rw [hstep, descend_cons]
        rw [ihsum, hmem1]
      · rw [hstep, descend_cons]
        rw [ihdet, hmem1]

/-- Witness for C7: on the example chain started from a store holding the
(empty) inherited summary at address 0, cell 0 is untouched, the result
summary cell is fresh, and the run returns the pure `descend` values. -/
theorem descend_store_frame_witness :
    (0 : Nat) < 1 ∧
    ((descendS ethLayer [ipLayer, tcpLayer] 0
        ⟨1, fun _ => []⟩).2).mem 0 = [] ∧
    1 ≤ (descendS ethLayer [ipLayer, tcpLayer] 0 ⟨1, fun _ => []⟩).1.1 ∧
    (descendS ethLayer [ipLayer, tcpLayer] 0 ⟨1, fun _ => []⟩).1.2 =
      (descend ethLayer [ipLayer, tcpLayer] []).2 :=
  ⟨Nat.zero_lt_one,
    (descend_store_frame ethLayer [ipLayer, tcpLayer] 0
      ⟨1, fun _ => []⟩).1 0 Nat.zero_lt_one,
    (descend_store_frame ethLayer [ipLayer, tcpLayer] 0
      ⟨1, fun _ => []⟩).2.2.1,
    (descend_store_frame ethLayer [ipLayer, tcpLayer] 0
      ⟨1, fun _ => []⟩).2.2.2.2.2⟩

/-! ### Error propagation (C8)

The engine has no `try`/`except`: any exception raised by an analyzer
method unwinds the whole recursion.  We rerun `descend` with each
analyzer method allowed to raise (`Except ε`), in the source's
evaluation order: `parse_layer_details()` (line 77), `get_summary()`
(line 82), `next_protocol()` (line 89), then the recursive call. -/

/-- A layer analyzer whose methods may raise: `Except.error e` models the
method raising exception `e`, and `next_raises` models `next_protocol()`
itself raising (when `none`, the next analyzer is the head of the rest of
the chain as before). -/
structure ELayer (ε α : Type) where
  className : String
  identify : Bool
  parse_layer_details : Except ε (FieldMap α)
  get_summary : Except ε (FieldMap (Option α))
  next_raises : Option ε

/-- The non-raising analyzer a raising one behaves as when none of its
methods actually raises. -/
def toProtocol {ε α : Type} (x : ELayer ε α) : Protocol α :=
  ⟨x.className, x.identify, x.parse_layer_details.toOption.getD [],
    x.get_summary.toOption.getD []⟩

/-- `descend` over analyzers whose methods may raise: the engine adds no
handling, so each raise unwinds immediately. -/
def descendE {ε α : Type} :
    ELayer ε α → List (ELayer ε α) → FieldMap α →
      Except ε (FieldMap α × FieldMap (FieldMap α))
  | p, rest, inh =>
    match p.parse_layer_details with
    | .error e => .error e
    | .ok cd =>
      let details : FieldMap (FieldMap α) :=
        if cd.isEmpty then [] else [(protocolNameOf p.className, cd)]
      match p.get_summary with
      | .error e => .error e
      | .ok cs =>
        let combined := pyUpdate inh (filterNonNull cs)
        match p.next_raises with
        | some e => .error e
        | none =>
          match rest with
          | [] => .ok (combined, details)
          | q :: qs =>
            match descendE q qs combined with
            | .error e => .error e
            | .ok r => .ok (r.1, pyUpdate details r.2)

/-- The first exception raised by any analyzer method during the descent,
in evaluation order, if any. -/
def firstRaise {ε α : Type} : ELayer ε α → List (ELayer ε α) → Option ε
  | p, rest =>
    match p.parse_layer_details with
    | .error e => some e
    | .ok _ =>
      match p.get_summary with
      | .error e => some e
      | .ok _ =>
        match p.next_raises with
        | some e => some e
        | none =>
          match rest with
          | [] => none
          | q :: qs => firstRaise q qs

/-- C8: the engine introduces no failure modes of its own.  If no
analyzer method raises during the descent, `descend` returns normally
(with the pure result on the non-raising projections of the layers); and
if some method raises, the first such exception propagates unchanged to
the caller of the top-level `descend` and nothing else (no partial
result) is returned. -/
theorem descend_error_propagation {ε α : Type} (p : ELayer ε α)
    (rest : List (ELayer ε α)) (inh : FieldMap α) :
    descendE p rest inh =
      match firstRaise p rest with
      | some e => .error e
      | none =>
          .ok (descend (toProtocol p) (rest.map toProtocol) inh) := by
  induction rest generalizing p inh with
  | nil =>
      cases hpd : p.parse_layer_details with
      | error e => simp [descendE, firstRaise, hpd]
      | ok cd =>
          cases hgs : p.get_summary with
          | error e => simp [descendE, firstRaise, hpd, hgs]
          | ok cs =>
              cases hnx : p.next_raises with
              | some e => simp [descendE, firstRaise, hpd, hgs, hnx]
              | none =>
                  simp [descendE, firstRaise, hpd, hgs, hnx, descend_nil,
                    combineSummary, layerDetailMap, toProtocol,
                    Except.toOption]
  | cons q qs ih =>
      cases hpd : p.parse_layer_details with
      | error e => simp [descendE, firstRaise, hpd]
      | ok cd =>
          cases hgs : p.get_summary with
          | error e => simp [descendE, firstRaise, hpd, hgs]
          | ok cs =>
              cases hnx : p.next_raises with
              | some e => simp [descendE, firstRaise, hpd, hgs, hnx]
              | none =>
                  rw [show (q :: qs).map toProtocol =
                    toProtocol q :: qs.map toProtocol from rfl]
                  cases hfr : firstRaise q qs with
                  | some e =>
                      simp [descendE, firstRaise, hpd, hgs, hnx, hfr, ih]
                  | none =>
                      simp [descendE, firstRaise, hpd, hgs, hnx, hfr, ih,
                        descend_cons, combineSummary, layerDetailMap,
                        toProtocol, Except.toOption]

/-! ### Independence from `identify` (C9) -/

/-- Two analyzers that agree on everything `descend` consults —
`parse_layer_details()`, `get_summary()` and the class name driving the
details key — but may differ arbitrarily in `identify()`. -/
def sameExceptIdentify {α : Type} (x y : Protocol α) : Prop :=
  x.className = y.className ∧
  x.parse_layer_details = y.parse_layer_details ∧
  x.get_summary = y.get_summary

/-- C9: `descend` never invokes `identify()`: two chains agreeing
layerwise on class name, `parse_layer_details` and `get_summary` but with
arbitrary `identify` results produce identical `descend` results. -/
theorem descend_ignores_identify {α : Type} (p1 p2 : Protocol α)
    (r1 r2 : List (Protocol α)) (inh : FieldMap α)
    (h : List.Forall₂ sameExceptIdentify (p1 :: r1) (p2 :: r2)) :
    descend p1 r1 inh = descend p2 r2 inh := by
  induction r1 generalizing p1 p2 r2 inh with
  | nil =>
      cases h with
      | cons hp ht =>
          cases ht
          obtain ⟨h1, h2, h3⟩ := hp
          rw [descend_nil, descend_nil]
          rw [show combineSummary inh p1.get_summary =
            combineSummary inh p2.get_summary from by rw [h3]]
          rw [show layerDetailMap p1 = layerDetailMap p2 from by
            unfold layerDetailMap
            rw [h1, h2]]
  | cons q1 t1 ih =>
      cases h with
      | cons hp ht =>
          cases ht with
          | cons hq ht' =>
              obtain ⟨h1, h2, h3⟩ := hp
              rw [descend_cons, descend_cons]
              rw [show combineSummary inh p1.get_summary =
                combineSummary inh p2.get_summary from by rw [h3]]
              rw [show layerDetailMap p1 = layerDetailMap p2 from by
                unfold layerDetailMap
                rw [h1, h2]]
              rw [ih q1 _ _ _ (List.Forall₂.cons hq ht')]

/-- Witness for C9: the example chain against a copy of itself with every
`identify()` result flipped. -/
theorem descend_ignores_identify_witness :
    List.Forall₂ sameExceptIdentify
      (ethLayer :: [ipLayer, tcpLayer])
      (⟨"EthernetProtocol", false, ethLayer.parse_layer_details,
          ethLayer.get_summary⟩ ::
        [⟨"IPProtocol", false, ipLayer.parse_layer_details,
            ipLayer.get_summary⟩,
          ⟨"TCPProtocol", false, tcpLayer.parse_layer_details,
            tcpLayer.get_summary⟩]) ∧
    descend ethLayer [ipLayer, tcpLayer] [] =
      descend
        ⟨"EthernetProtocol", false, ethLayer.parse_layer_details,
          ethLayer.get_summary⟩
        [⟨"IPProtocol", false, ipLayer.parse_layer_details,
            ipLayer.get_summary⟩,
          ⟨"TCPProtocol", false, tcpLayer.parse_layer_details,
            tcpLayer.get_summary⟩] [] :=
  ⟨by
    refine List.Forall₂.cons ⟨rfl, rfl, rfl⟩ ?_
    refine List.Forall₂.cons ⟨rfl, rfl, rfl⟩ ?_
    exact List.Forall₂.cons ⟨rfl, rfl, rfl⟩ List.Forall₂.nil,
    descend_ignores_identify ethLayer _ [ipLayer, tcpLayer] _ []
      (by
        refine List.Forall₂.cons ⟨rfl, rfl, rfl⟩ ?_
        refine List.Forall₂.cons ⟨rfl, rfl, rfl⟩ ?_
        exact List.Forall₂.cons ⟨rfl, rfl, rfl⟩ List.Forall₂.nil)⟩

end ProtocolAnalysis
